import Mathlib

/-!
Shallow embedding of the sequence-to-sequence core of
`src/attention_decoder.ipynb`.

Conventions of the embedding:
* Token ids are `Nat`; id 0 is the start marker, id 1 is the end marker.
* A decoder output tensor (the per-vocabulary score vector `x`) is a
  `List Int`; vectors (recurrent states, encoder output rows) are `List Int`
  as well.  The numeric field is irrelevant to the properties proved here
  (argmax comparisons, zero rows, loop structure), so integers stand in for
  the floats of the original.
* A decoder object is a tag (`decoder`, the string attribute branched on by
  `calc_decoder_loss`) together with its forward function; the forward
  function receives the optional `encoder_outputs` argument explicitly.
* Fallible tensor operations are modelled with `Option`: the window build
  of `translate` fails (a shape-mismatched slice assignment) when the
  encoder produced more rows than the buffer has.
* Gradient bookkeeping (`.detach()`, `.view(...)`, devices) has no
  observable effect on the values computed and is dropped.
-/

set_option autoImplicit false

namespace Seq2Seq

/-- `torch.argmax` over a flattened score vector: the index of the first
occurrence of the greatest value (0 for the empty vector, which never occurs
for a real vocabulary). -/
def argmaxAux : List Int → Nat → Nat → Int → Nat
  | [], _, best, _ => best
  | x :: xs, i, best, bestVal =>
    if bestVal < x then argmaxAux xs (i + 1) i x else argmaxAux xs (i + 1) best bestVal

/-- `x.argmax()` for a score vector `x`. -/
def argmax : List Int → Nat
  | [] => 0
  | x :: xs => argmaxAux xs 1 0 x

/-- A decoder object: the `decoder` string attribute (`"attention"` or
`"simple"`) that `calc_decoder_loss` branches on, and the forward function
`__call__(word, h, encoder_outputs)`; the simple decoder is called without
`encoder_outputs`, modelled by passing `none`. -/
structure Decoder (σ W : Type) where
  decoder : String
  forward : Nat → σ → Option W → List Int × σ

/-- The call site of the loss loop:
`x, h = decoder(word, h, encoder_outputs)` when `decoder.decoder ==
'attention'`, else `x, h = decoder(word, h)`. -/
def Decoder.call {σ W : Type} (d : Decoder σ W) (encoder_outputs : Option W)
    (word : Nat) (h : σ) : List Int × σ :=
  if d.decoder = "attention" then d.forward word h encoder_outputs
  else d.forward word h none

/-- One executed iteration of the loss loop of `calc_decoder_loss`: the word
fed to the decoder, the score vector `x` the decoder produced, and the target
token `sentence[j]` of that position. -/
structure LossStep where
  fed : Nat
  dist : List Int
  target : Nat
deriving DecidableEq

/-- The token chosen at the end of a loss-loop iteration: the ground-truth
target under teacher forcing, otherwise `argmax` of the produced scores
(`word = sentence[j]` / `word = x.argmax().detach()`). -/
def chosenWord (teacher_forcing : Bool) (st : LossStep) : Nat :=
  if teacher_forcing then st.target else argmax st.dist

/-- The loop of `calc_decoder_loss`, accumulating the loss.  Arguments after
the fixed ones: the remaining suffix of `sentence`, the current `word`, the
current hidden state `h`.  Each iteration invokes the decoder once, adds
`criterion(x, sentence[j])`, chooses the next `word`, and breaks when the
chosen word is the end marker (id 1). -/
def calcLossGo {σ W : Type} (d : Decoder σ W) (criterion : List Int → Nat → Int)
    (encoder_outputs : Option W) (teacher_forcing : Bool) :
    List Nat → Nat → σ → Int
  | [], _, _ => 0
  | t :: rest, word, h =>
    let r := d.call encoder_outputs word h
    let stepLoss := criterion r.1 t
    let next := if teacher_forcing then t else argmax r.1
    if next = 1 then stepLoss
    else stepLoss + calcLossGo d criterion encoder_outputs teacher_forcing rest next r.2

/-- `calc_decoder_loss(decoder, criterion, sentence, h, teacher_forcing,
encoder_outputs)` from the notebook: `loss = 0`, `word` starts as the start
marker (id 0), then the loop `calcLossGo` runs over the positions of
`sentence`. -/
def calc_decoder_loss {σ W : Type} (d : Decoder σ W) (criterion : List Int → Nat → Int)
    (sentence : List Nat) (h : σ) (teacher_forcing : Bool)
    (encoder_outputs : Option W) : Int :=
  calcLossGo d criterion encoder_outputs teacher_forcing sentence 0 h

/-- The execution trace of the loop of `calc_decoder_loss`: one `LossStep`
per decoder invocation, in order, with the same control flow as
`calcLossGo`. -/
def lossSteps {σ W : Type} (d : Decoder σ W) (encoder_outputs : Option W)
    (teacher_forcing : Bool) : List Nat → Nat → σ → List LossStep
  | [], _, _ => []
  | t :: rest, word, h =>
    let r := d.call encoder_outputs word h
    let next := if teacher_forcing then t else argmax r.1
    ⟨word, r.1, t⟩ ::
      (if next = 1 then []
       else lossSteps d encoder_outputs teacher_forcing rest next r.2)

/-- The attention-window build of `translate`:
`encoder_outputs = torch.zeros(max_length, out.shape[-1])` followed by
`encoder_outputs[:out.shape[0], :out.shape[-1]] = out.view(out.shape[0], -1)`.
When `out` has at most `max_length` rows the buffer holds the rows of `out`
followed by zero rows; when it has more, the slice assignment fails with a
shape mismatch (the sliced buffer keeps only `max_length` rows while the
right-hand side has `out.length`), modelled as `none`. -/
def mkEncoderOutputs (out : List (List Int)) (max_length : Nat) :
    Option (List (List Int)) :=
  if out.length ≤ max_length then
    some (out ++ List.replicate (max_length - out.length)
      (List.replicate (out.headD []).length 0))
  else none

/-- The decode loop of `translate`: at most `n = eng_sentence.shape[0]`
iterations; each iteration calls
`x, h = decoder(word, h, encoder_outputs=encoder_outputs)`, appends
`word = x.argmax()` to the translation, and breaks when that word is the end
marker (id 1). -/
def translateLoop {σ : Type} (d : Decoder σ (List (List Int)))
    (encoder_outputs : List (List Int)) : Nat → Nat → σ → List Nat
  | 0, _, _ => []
  | Nat.succ n, word, h =>
    let r := d.forward word h (some encoder_outputs)
    let next := argmax r.1
    next :: (if next = 1 then [] else translateLoop d encoder_outputs n next r.2)

/-- The per-step trace of the decode loop of `translate`: the word fed to the
decoder and the score vector produced, one entry per decoder invocation. -/
structure TransStep where
  fed : Nat
  dist : List Int
deriving DecidableEq

/-- Trace variant of `translateLoop`, with the same control flow. -/
def translateSteps {σ : Type} (d : Decoder σ (List (List Int)))
    (encoder_outputs : List (List Int)) : Nat → Nat → σ → List TransStep
  | 0, _, _ => []
  | Nat.succ n, word, h =>
    let r := d.forward word h (some encoder_outputs)
    let next := argmax r.1
    ⟨word, r.1⟩ ::
      (if next = 1 then [] else translateSteps d encoder_outputs n next r.2)

/-- The per-sentence body of `translate` from the notebook: encode the source
sentence, build the fixed attention window (`mkEncoderOutputs`), then run the
greedy decode loop starting from `word = 0` (the start marker) and the
encoder's final hidden state, for at most `eng_sentence.shape[0]` steps.
`none` when the window build fails. -/
def translate {σ : Type} (encoder : List Nat → List (List Int) × σ)
    (d : Decoder σ (List (List Int))) (eng_sentence : List Nat)
    (max_length : Nat) : Option (List Nat) :=
  let out := (encoder eng_sentence).1
  let h := (encoder eng_sentence).2
  match mkEncoderOutputs out max_length with
  | none => none
  | some encoder_outputs =>
      some (translateLoop d encoder_outputs eng_sentence.length 0 h)

/-- Modelled from the spec: the body of the Encoder's recurrence.  In the
notebook the `Encoder` class is an exercise skeleton (its embedding, zero
state and recurrent step are ellipsis placeholders), so the loop follows
spec section 4.1: each token id is embedded and fed, together with the
running state, through the recurrent cell, yielding one output vector per
position and the updated state. -/
def encodeGo (embedding : Nat → List Int)
    (cell : List Int → List Int → List Int × List Int) :
    List Nat → List Int → List (List Int) × List Int
  | [], h => ([], h)
  | t :: rest, h =>
    let r := cell (embedding t) h
    let tail := encodeGo embedding cell rest r.2
    (r.1 :: tail.1, tail.2)

/-- Modelled from the spec: `encode(tokenIds) -> (outputs, finalState)` of
spec section 4.1 (the notebook's `Encoder.forward` is an exercise skeleton).
The running state is initialized to a zero vector of the hidden size at the
start of the sentence, and the recurrence `encodeGo` consumes the token ids
in order. -/
def encode (embedding : Nat → List Int)
    (cell : List Int → List Int → List Int × List Int) (hidden_size : Nat)
    (tokenIds : List Nat) : List (List Int) × List Int :=
  encodeGo embedding cell tokenIds (List.replicate hidden_size 0)

/-- A concrete stub decoder whose score vector always makes the end marker
(id 1) the argmax, used for concrete runs of the theorems. -/
def eosStubDecoder (W : Type) : Decoder Unit W :=
  ⟨"simple", fun _ _ _ => ([0, 5], ())⟩

/-- A concrete stub decoder that never predicts the end marker (the argmax of
its scores is index 0), used for concrete runs of the theorems. -/
def noEosStubDecoder (W : Type) : Decoder Unit W :=
  ⟨"attention", fun _ _ _ => ([9, 0, 3], ())⟩

/-- A concrete stub criterion for concrete runs of the theorems. -/
def sumCriterion : List Int → Nat → Int :=
  fun x t => x.sum + Int.ofNat t

/-- A concrete stub encoder (one output row per token, trivial state) for
concrete runs of the theorems. -/
def stubEncoder : List Nat → List (List Int) × Unit :=
  fun s => (s.map (fun t => [Int.ofNat t]), ())

/-- A concrete stub encoder producing three output rows, for concrete runs
on a window of smaller capacity. -/
def overflowEncoder : List Nat → List (List Int) × Unit :=
  fun _ => ([[5], [6], [7]], ())

/-- A concrete stub embedding for concrete runs of the encoder theorems. -/
def stubEmbedding : Nat → List Int :=
  fun t => [Int.ofNat t]

/-- A concrete stub recurrent cell with hidden size 3 for concrete runs of
the encoder theorems. -/
def stubCell : List Int → List Int → List Int × List Int :=
  fun x h => (x ++ h, [h.sum, 0, 1])

/-! ### Helper lemmas about the loss loop -/

theorem lossSteps_length_le {σ W : Type} (d : Decoder σ W) (eo : Option W) (tf : Bool) :
    ∀ (s : List Nat) (w : Nat) (h : σ), (lossSteps d eo tf s w h).length ≤ s.length := by
  intro s
  induction s with
  | nil => intro w h; exact Nat.le_refl 0
  | cons t rest ih =>
    intro w h
    by_cases hc : (if tf then t else argmax (d.call eo w h).1) = 1
    · simp [lossSteps, hc]
    · simp only [lossSteps, if_neg hc, List.length_cons]
      exact Nat.succ_le_succ (ih _ _)

theorem calcLossGo_eq_sum {σ W : Type} (d : Decoder σ W) (criterion : List Int → Nat → Int)
    (eo : Option W) (tf : Bool) :
    ∀ (s : List Nat) (w : Nat) (h : σ),
      calcLossGo d criterion eo tf s w h =
        ((lossSteps d eo tf s w h).map (fun st => criterion st.dist st.target)).sum := by
  intro s
  induction s with
  | nil => intro w h; rfl
  | cons t rest ih =>
    intro w h
    by_cases hc : (if tf then t else argmax (d.call eo w h).1) = 1
    · simp [calcLossGo, lossSteps, hc]
    · simp [calcLossGo, lossSteps, hc, ih]

theorem lossSteps_map_target {σ W : Type} (d : Decoder σ W) (eo : Option W) (tf : Bool) :
    ∀ (s : List Nat) (w : Nat) (h : σ),
      (lossSteps d eo tf s w h).map LossStep.target =
        s.take (lossSteps d eo tf s w h).length := by
  intro s
  induction s with
  | nil => intro w h; rfl
  | cons t rest ih =>
    intro w h
    by_cases hc : (if tf then t else argmax (d.call eo w h).1) = 1
    · simp [lossSteps, hc]
    · simp [lossSteps, hc, ih]

theorem lossSteps_map_fed {σ W : Type} (d : Decoder σ W) (eo : Option W) :
    ∀ (s : List Nat) (w : Nat) (h : σ),
      (lossSteps d eo true s w h).map LossStep.fed =
        (w :: s).take (lossSteps d eo true s w h).length := by
  intro s
  induction s with
  | nil => intro w h; rfl
  | cons t rest ih =>
    intro w h
    by_cases hc : t = 1
    · simp [lossSteps, hc]
    · simp [lossSteps, hc, ih]

theorem lossSteps_stop_after_eos {σ W : Type} (d : Decoder σ W) (eo : Option W) (tf : Bool) :
    ∀ (s : List Nat) (w : Nat) (h : σ) (i : Nat)
      (hi : i < (lossSteps d eo tf s w h).length),
      chosenWord tf ((lossSteps d eo tf s w h).get ⟨i, hi⟩) = 1 →
      (lossSteps d eo tf s w h).length = i + 1 := by
  intro s
  induction s with
  | nil => intro w h i hi; exact absurd hi (Nat.not_lt_zero i)
  | cons t rest ih =>
    intro w h i hi heos
    by_cases hc : (if tf then t else argmax (d.call eo w h).1) = 1
    · have hlen : (lossSteps d eo tf (t :: rest) w h).length = 1 := by simp [lossSteps, hc]
      have hi1 : i < 1 := hlen ▸ hi
      omega
    · cases i with
      | zero =>
        exfalso
        apply hc
        simp only [lossSteps, List.get_cons_zero, chosenWord] at heos
        exact heos
      | succ j =>
        have hj : j < (lossSteps d eo tf rest
            (if tf then t else argmax (d.call eo w h).1) (d.call eo w h).2).length := by
          have := hi
          simp only [lossSteps, if_neg hc, List.length_cons] at this
          omega
        have heos2 : chosenWord tf ((lossSteps d eo tf rest
            (if tf then t else argmax (d.call eo w h).1) (d.call eo w h).2).get ⟨j, hj⟩) = 1 := by
          simpa [lossSteps, hc] using heos
        have := ih (if tf then t else argmax (d.call eo w h).1) (d.call eo w h).2 j hj heos2
        simp only [lossSteps, if_neg hc, List.length_cons]
        omega

theorem getLast?_cons_of_ne_nil {α : Type} (a : α) {l : List α} (h : l ≠ []) :
    (a :: l).getLast? = l.getLast? := by
  cases l with
  | nil => exact absurd rfl h
  | cons b bs => rfl

theorem lossSteps_early_exit {σ W : Type} (d : Decoder σ W) (eo : Option W) (tf : Bool) :
    ∀ (s : List Nat) (w : Nat) (h : σ),
      (lossSteps d eo tf s w h).length < s.length →
      ∃ st, (lossSteps d eo tf s w h).getLast? = some st ∧ chosenWord tf st = 1 := by
  intro s
  induction s with
  | nil => intro w h hlt; exact absurd hlt (Nat.not_lt_zero _)
  | cons t rest ih =>
    intro w h hlt
    by_cases hc : (if tf then t else argmax (d.call eo w h).1) = 1
    · refine ⟨⟨w, (d.call eo w h).1, t⟩, ?_, ?_⟩
      · simp [lossSteps, hc]
      · simpa [chosenWord] using hc
    · have hlt2 : (lossSteps d eo tf rest
          (if tf then t else argmax (d.call eo w h).1) (d.call eo w h).2).length < rest.length := by
        have := hlt
        simp only [lossSteps, if_neg hc, List.length_cons] at this
        omega
      obtain ⟨st, hlast, hch⟩ := ih _ _ hlt2
      refine ⟨st, ?_, hch⟩
      have hne : lossSteps d eo tf rest
          (if tf then t else argmax (d.call eo w h).1) (d.call eo w h).2 ≠ [] := by
        intro hnil
        rw [hnil] at hlast
        exact Option.noConfusion hlast
      simp only [lossSteps, if_neg hc]
      rw [getLast?_cons_of_ne_nil _ hne]
      exact hlast

theorem lossSteps_head_fed {σ W : Type} (d : Decoder σ W) (eo : Option W) (tf : Bool)
    (s : List Nat) (w : Nat) (h : σ) :
    ∀ st, (lossSteps d eo tf s w h).head? = some st → st.fed = w := by
  cases s with
  | nil => intro st hst; exact Option.noConfusion hst
  | cons t rest =>
    intro st hst
    simp only [lossSteps, List.head?_cons, Option.some.injEq] at hst
    rw [← hst]

/-! ### Helper lemmas about the greedy decode loop and the window build -/

theorem translateLoop_eq_map_steps {σ : Type} (d : Decoder σ (List (List Int)))
    (eo : List (List Int)) :
    ∀ (n w : Nat) (h : σ),
      translateLoop d eo n w h =
        (translateSteps d eo n w h).map (fun st => argmax st.dist) := by
  intro n
  induction n with
  | zero => intro w h; rfl
  | succ n ih =>
    intro w h
    by_cases hc : argmax (d.forward w h (some eo)).1 = 1
    · simp [translateLoop, translateSteps, hc]
    · simp [translateLoop, translateSteps, hc, ih]

theorem translateLoop_length_le {σ : Type} (d : Decoder σ (List (List Int)))
    (eo : List (List Int)) :
    ∀ (n w : Nat) (h : σ), (translateLoop d eo n w h).length ≤ n := by
  intro n
  induction n with
  | zero => intro w h; exact Nat.le_refl 0
  | succ n ih =>
    intro w h
    by_cases hc : argmax (d.forward w h (some eo)).1 = 1
    · simp [translateLoop, hc]
    · simp only [translateLoop, if_neg hc, List.length_cons]
      exact Nat.succ_le_succ (ih _ _)

theorem translateLoop_stop_after_eos {σ : Type} (d : Decoder σ (List (List Int)))
    (eo : List (List Int)) :
    ∀ (n w : Nat) (h : σ) (i : Nat) (hi : i < (translateLoop d eo n w h).length),
      (translateLoop d eo n w h).get ⟨i, hi⟩ = 1 →
      (translateLoop d eo n w h).length = i + 1 := by
  intro n
  induction n with
  | zero => intro w h i hi; exact absurd hi (Nat.not_lt_zero i)
  | succ n ih =>
    intro w h i hi heos
    by_cases hc : argmax (d.forward w h (some eo)).1 = 1
    · have hlen : (translateLoop d eo (n + 1) w h).length = 1 := by
        simp [translateLoop, hc]
      have hi1 : i < 1 := hlen ▸ hi
      omega
    · cases i with
      | zero =>
        exfalso
        apply hc
        simp only [translateLoop, List.get_cons_zero] at heos
        exact heos
      | succ j =>
        have hj : j < (translateLoop d eo n (argmax (d.forward w h (some eo)).1)
            (d.forward w h (some eo)).2).length := by
          have := hi
          simp only [translateLoop, if_neg hc, List.length_cons] at this
          omega
        have heos2 : (translateLoop d eo n (argmax (d.forward w h (some eo)).1)
            (d.forward w h (some eo)).2).get ⟨j, hj⟩ = 1 := by
          simpa [translateLoop, if_neg hc] using heos
        have := ih _ _ j hj heos2
        simp only [translateLoop, if_neg hc, List.length_cons]
        omega

theorem translateLoop_early_exit {σ : Type} (d : Decoder σ (List (List Int)))
    (eo : List (List Int)) :
    ∀ (n w : Nat) (h : σ), (translateLoop d eo n w h).length < n →
      (translateLoop d eo n w h).getLast? = some 1 := by
  intro n
  induction n with
  | zero => intro w h hlt; exact absurd hlt (Nat.not_lt_zero _)
  | succ n ih =>
    intro w h hlt
    by_cases hc : argmax (d.forward w h (some eo)).1 = 1
    · simp [translateLoop, hc]
    · have hlt2 : (translateLoop d eo n (argmax (d.forward w h (some eo)).1)
          (d.forward w h (some eo)).2).length < n := by
        have := hlt
        simp only [translateLoop, if_neg hc, List.length_cons] at this
        omega
      have hlast := ih _ _ hlt2
      have hne : translateLoop d eo n (argmax (d.forward w h (some eo)).1)
          (d.forward w h (some eo)).2 ≠ [] := by
        intro hnil
        rw [hnil] at hlast
        exact Option.noConfusion hlast
      simp only [translateLoop, if_neg hc]
      rw [getLast?_cons_of_ne_nil _ hne]
      exact hlast

theorem translateLoop_ne_nil {σ : Type} (d : Decoder σ (List (List Int)))
    (eo : List (List Int)) (n w : Nat) (h : σ) (hn : 0 < n) :
    translateLoop d eo n w h ≠ [] := by
  cases n with
  | zero => exact absurd hn (Nat.lt_irrefl 0)
  | succ n => simp [translateLoop]

theorem mkEncoderOutputs_eq_some {out : List (List Int)} {max_length : Nat}
    (hle : out.length ≤ max_length) :
    mkEncoderOutputs out max_length =
      some (out ++ List.replicate (max_length - out.length)
        (List.replicate (out.headD []).length 0)) := by
  simp [mkEncoderOutputs, hle]

theorem encodeGo_spec (embedding : Nat → List Int)
    (cell : List Int → List Int → List Int × List Int) (hidden_size : Nat)
    (hcell : ∀ x h, ((cell x h).2).length = hidden_size) :
    ∀ (l : List Nat) (h : List Int), h.length = hidden_size →
      (encodeGo embedding cell l h).1.length = l.length ∧
      (encodeGo embedding cell l h).2.length = hidden_size := by
  intro l
  induction l with
  | nil => intro h hh; exact ⟨rfl, hh⟩
  | cons t rest ih =>
    intro h hh
    obtain ⟨h1, h2⟩ := ih (cell (embedding t) h).2 (hcell _ _)
    exact ⟨by simp [encodeGo, h1], by simpa [encodeGo] using h2⟩

/-! ### The claims -/

/-- Claim C1: with teacher forcing off, the loss driver executes at most
`len(sentence)` decoder steps, its returned loss is one criterion term per
executed step, and any executed step whose argmax over the produced score
vector equals the end marker (id 1) is the last executed step — the loop
exits immediately after it. -/
theorem selfFed_driver_bounded_stops_at_eos {σ W : Type} (d : Decoder σ W)
    (criterion : List Int → Nat → Int) (sentence : List Nat) (h : σ)
    (eo : Option W) (_hne : sentence ≠ []) :
    (lossSteps d eo false sentence 0 h).length ≤ sentence.length ∧
    calc_decoder_loss d criterion sentence h false eo =
      ((lossSteps d eo false sentence 0 h).map
        (fun st => criterion st.dist st.target)).sum ∧
    ∀ (i : Nat) (hi : i < (lossSteps d eo false sentence 0 h).length),
      argmax ((lossSteps d eo false sentence 0 h).get ⟨i, hi⟩).dist = 1 →
      (lossSteps d eo false sentence 0 h).length = i + 1 := by
  refine ⟨lossSteps_length_le d eo false sentence 0 h,
    calcLossGo_eq_sum d criterion eo false sentence 0 h, ?_⟩
  intro i hi heos
  exact lossSteps_stop_after_eos d eo false sentence 0 h i hi
    (by simpa [chosenWord] using heos)

/-- Concrete run of the C1 theorem: a stub decoder that immediately predicts
the end marker, on the target sentence `[7, 8, 9]`. -/
theorem selfFed_driver_bounded_stops_at_eos_run :
    ([7, 8, 9] : List Nat) ≠ [] ∧
    ((lossSteps (eosStubDecoder Unit) none false [7, 8, 9] 0 ()).length ≤
        ([7, 8, 9] : List Nat).length ∧
      calc_decoder_loss (eosStubDecoder Unit) sumCriterion [7, 8, 9] () false none =
        ((lossSteps (eosStubDecoder Unit) none false [7, 8, 9] 0 ()).map
          (fun st => sumCriterion st.dist st.target)).sum ∧
      ∀ (i : Nat)
        (hi : i < (lossSteps (eosStubDecoder Unit) none false [7, 8, 9] 0 ()).length),
        argmax ((lossSteps (eosStubDecoder Unit) none false [7, 8, 9] 0 ()).get
          ⟨i, hi⟩).dist = 1 →
        (lossSteps (eosStubDecoder Unit) none false [7, 8, 9] 0 ()).length = i + 1) :=
  ⟨by decide, selfFed_driver_bounded_stops_at_eos (eosStubDecoder Unit) sumCriterion
    [7, 8, 9] () none (by decide)⟩

/-- Claim C2: with teacher forcing on, the fed words of the executed steps
are the start marker (id 0) followed by exactly the ground-truth target
tokens, up to the loop's exit, regardless of what the decoder predicts. -/
theorem teacher_forcing_feeds_ground_truth {σ W : Type} (d : Decoder σ W)
    (eo : Option W) (sentence : List Nat) (h : σ) :
    (lossSteps d eo true sentence 0 h).map LossStep.fed =
      (0 :: sentence).take (lossSteps d eo true sentence 0 h).length :=
  lossSteps_map_fed d eo sentence 0 h

/-- Claim C6: the returned loss is the sum of `criterion(distribution_j,
sentence[j])` over the executed steps — one term per decoder invocation, the
exit step included — the executed targets are the corresponding prefix of the
sentence, and the first fed word is the start marker (id 0). -/
theorem loss_is_sum_of_step_losses {σ W : Type} (d : Decoder σ W)
    (criterion : List Int → Nat → Int) (sentence : List Nat) (h : σ)
    (tf : Bool) (eo : Option W) :
    calc_decoder_loss d criterion sentence h tf eo =
      ((lossSteps d eo tf sentence 0 h).map
        (fun st => criterion st.dist st.target)).sum ∧
    (lossSteps d eo tf sentence 0 h).map LossStep.target =
      sentence.take (lossSteps d eo tf sentence 0 h).length ∧
    ∀ st, (lossSteps d eo tf sentence 0 h).head? = some st → st.fed = 0 :=
  ⟨calcLossGo_eq_sum d criterion eo tf sentence 0 h,
   lossSteps_map_target d eo tf sentence 0 h,
   lossSteps_head_fed d eo tf sentence 0 h⟩

/-- Concrete run of the C6 theorem: a stub decoder that never predicts the
end marker, under teacher forcing, on the target sentence `[4, 5]`. -/
theorem loss_is_sum_of_step_losses_run :
    calc_decoder_loss (noEosStubDecoder Unit) sumCriterion [4, 5] () true none =
      ((lossSteps (noEosStubDecoder Unit) none true [4, 5] 0 ()).map
        (fun st => sumCriterion st.dist st.target)).sum ∧
    (lossSteps (noEosStubDecoder Unit) none true [4, 5] 0 ()).map LossStep.target =
      ([4, 5] : List Nat).take (lossSteps (noEosStubDecoder Unit) none true [4, 5] 0 ()).length ∧
    ∀ st, (lossSteps (noEosStubDecoder Unit) none true [4, 5] 0 ()).head? = some st →
      st.fed = 0 :=
  loss_is_sum_of_step_losses (noEosStubDecoder Unit) sumCriterion [4, 5] () true none

/-- Claim C7: under either teacher-forcing mode, an executed step whose
chosen next word (the ground-truth token when forcing, the argmax prediction
otherwise) is the end marker (id 1) is the last executed step; the loop stops
before the end of the sentence only on such a chosen end marker; and the
returned loss is the loss accumulated over the executed steps. -/
theorem chosen_eos_exits_early {σ W : Type} (d : Decoder σ W)
    (criterion : List Int → Nat → Int) (sentence : List Nat) (h : σ)
    (tf : Bool) (eo : Option W) :
    (∀ (i : Nat) (hi : i < (lossSteps d eo tf sentence 0 h).length),
       chosenWord tf ((lossSteps d eo tf sentence 0 h).get ⟨i, hi⟩) = 1 →
       (lossSteps d eo tf sentence 0 h).length = i + 1) ∧
    ((lossSteps d eo tf sentence 0 h).length < sentence.length →
       ∃ st, (lossSteps d eo tf sentence 0 h).getLast? = some st ∧
         chosenWord tf st = 1) ∧
    calc_decoder_loss d criterion sentence h tf eo =
      ((lossSteps d eo tf sentence 0 h).map
        (fun st => criterion st.dist st.target)).sum :=
  ⟨lossSteps_stop_after_eos d eo tf sentence 0 h,
   lossSteps_early_exit d eo tf sentence 0 h,
   calcLossGo_eq_sum d criterion eo tf sentence 0 h⟩

/-- Concrete run of the C7 theorem: a stub decoder that immediately predicts
the end marker, self-fed, on the target sentence `[7, 8, 9]` — the loop stops
after one of three positions. -/
theorem chosen_eos_exits_early_run :
    (∀ (i : Nat)
       (hi : i < (lossSteps (eosStubDecoder Unit) none false [7, 8, 9] 0 ()).length),
       chosenWord false ((lossSteps (eosStubDecoder Unit) none false [7, 8, 9] 0 ()).get
         ⟨i, hi⟩) = 1 →
       (lossSteps (eosStubDecoder Unit) none false [7, 8, 9] 0 ()).length = i + 1) ∧
    ((lossSteps (eosStubDecoder Unit) none false [7, 8, 9] 0 ()).length <
        ([7, 8, 9] : List Nat).length →
       ∃ st, (lossSteps (eosStubDecoder Unit) none false [7, 8, 9] 0 ()).getLast? =
           some st ∧ chosenWord false st = 1) ∧
    calc_decoder_loss (eosStubDecoder Unit) sumCriterion [7, 8, 9] () false none =
      ((lossSteps (eosStubDecoder Unit) none false [7, 8, 9] 0 ()).map
        (fun st => sumCriterion st.dist st.target)).sum :=
  chosen_eos_exits_early (eosStubDecoder Unit) sumCriterion [7, 8, 9] () false none

/-- Claim C10: on the empty target sequence the driver invokes the decoder
zero times (its execution trace is empty) and returns the initial loss 0, for
every decoder, criterion, state, window and teacher-forcing mode. -/
theorem empty_target_zero_loss {σ W : Type} (d : Decoder σ W)
    (criterion : List Int → Nat → Int) (h : σ) (tf : Bool) (eo : Option W) :
    calc_decoder_loss d criterion [] h tf eo = 0 ∧
    lossSteps d eo tf [] 0 h = [] :=
  ⟨rfl, rfl⟩

/-- Claim C3: for a non-empty source (whose encoder output fits the window,
so the decode loop is reached), `translate` starts from `word = 0` (the start
marker) and the encoder's final state, its output is the per-step argmax of
the produced score vectors, it is non-empty, it never has more tokens than
the source, any produced end marker (id 1) is its final token, and when the
loop stops before the source-length bound the final token is the end
marker. -/
theorem translate_greedy_loop_props {σ : Type}
    (encoder : List Nat → List (List Int) × σ) (d : Decoder σ (List (List Int)))
    (src : List Nat) (max_length : Nat) (hne : src ≠ [])
    (hfit : (encoder src).1.length ≤ max_length) :
    ∃ w ts, mkEncoderOutputs (encoder src).1 max_length = some w ∧
      translate encoder d src max_length = some ts ∧
      ts = translateLoop d w src.length 0 (encoder src).2 ∧
      ts = (translateSteps d w src.length 0 (encoder src).2).map
        (fun st => argmax st.dist) ∧
      ts ≠ [] ∧
      ts.length ≤ src.length ∧
      (∀ (i : Nat) (hi : i < ts.length), ts.get ⟨i, hi⟩ = 1 → ts.length = i + 1) ∧
      (ts.length < src.length → ts.getLast? = some 1) := by
  refine ⟨_, _, mkEncoderOutputs_eq_some hfit, ?_, rfl,
    translateLoop_eq_map_steps d _ src.length 0 _,
    translateLoop_ne_nil d _ src.length 0 _ (List.length_pos.mpr hne),
    translateLoop_length_le d _ src.length 0 _,
    translateLoop_stop_after_eos d _ src.length 0 _,
    translateLoop_early_exit d _ src.length 0 _⟩
  simp [translate, mkEncoderOutputs_eq_some hfit]

/-- Concrete run of the C3 theorem: the stub encoder on source `[5, 6]` with
window capacity 3 and a decoder that immediately predicts the end marker. -/
theorem translate_greedy_loop_props_run :
    (([5, 6] : List Nat) ≠ [] ∧ (stubEncoder [5, 6]).1.length ≤ 3) ∧
    (∃ w ts, mkEncoderOutputs (stubEncoder [5, 6]).1 3 = some w ∧
      translate stubEncoder (eosStubDecoder (List (List Int))) [5, 6] 3 = some ts ∧
      ts = translateLoop (eosStubDecoder (List (List Int))) w
        ([5, 6] : List Nat).length 0 (stubEncoder [5, 6]).2 ∧
      ts = (translateSteps (eosStubDecoder (List (List Int))) w
        ([5, 6] : List Nat).length 0 (stubEncoder [5, 6]).2).map
          (fun st => argmax st.dist) ∧
      ts ≠ [] ∧
      ts.length ≤ ([5, 6] : List Nat).length ∧
      (∀ (i : Nat) (hi : i < ts.length), ts.get ⟨i, hi⟩ = 1 → ts.length = i + 1) ∧
      (ts.length < ([5, 6] : List Nat).length → ts.getLast? = some 1)) :=
  ⟨⟨by decide, by decide⟩,
    translate_greedy_loop_props stubEncoder (eosStubDecoder (List (List Int)))
      [5, 6] 3 (by decide) (by decide)⟩

/-- Claim C4 (counterexample): with encoder outputs `[[5], [6]]` and
`max_length = 1` the window build does not silently truncate to the first
`max_length` rows — the slice assignment fails on the shape mismatch
(modelled as `none`), so no window holding the first row is produced. -/
theorem window_overflow_no_silent_truncation :
    mkEncoderOutputs [[5], [6]] 1 = none ∧
    mkEncoderOutputs [[5], [6]] 1 ≠ some [[5]] :=
  ⟨by decide, by decide⟩

/-- Claim C4 (amended): when the encoder produces more output rows than
`max_length`, the window build fails with a shape mismatch — no truncated
window is produced — and `translate` returns no translation. -/
theorem window_overflow_errors {σ : Type}
    (encoder : List Nat → List (List Int) × σ) (d : Decoder σ (List (List Int)))
    (src : List Nat) (max_length : Nat)
    (hgt : max_length < (encoder src).1.length) :
    mkEncoderOutputs (encoder src).1 max_length = none ∧
    translate encoder d src max_length = none := by
  have h1 : mkEncoderOutputs (encoder src).1 max_length = none := by
    simp [mkEncoderOutputs, Nat.not_le.mpr hgt]
  refine ⟨h1, ?_⟩
  simp [translate, h1]

/-- Concrete run of the amended C4 theorem: three encoder output rows into a
window of capacity 1. -/
theorem window_overflow_errors_run :
    1 < (overflowEncoder [4]).1.length ∧
    (mkEncoderOutputs (overflowEncoder [4]).1 1 = none ∧
      translate overflowEncoder (eosStubDecoder (List (List Int))) [4] 1 = none) :=
  ⟨by decide, window_overflow_errors overflowEncoder
    (eosStubDecoder (List (List Int))) [4] 1 (by decide)⟩

/-- Claim C5: when the encoder output has `n ≤ max_length` rows, the built
attention window has exactly `max_length` rows, its first `n` rows are the
encoder outputs in order, and its rows from `n` through `max_length - 1` are
zero vectors. -/
theorem window_pad_zero (out : List (List Int)) (max_length : Nat)
    (hle : out.length ≤ max_length) :
    ∃ w, mkEncoderOutputs out max_length = some w ∧
      w.length = max_length ∧
      w.take out.length = out ∧
      w.drop out.length =
        List.replicate (max_length - out.length)
          (List.replicate (out.headD []).length 0) := by
  refine ⟨_, mkEncoderOutputs_eq_some hle, ?_, ?_, ?_⟩
  · simp only [List.length_append, List.length_replicate]
    omega
  · exact List.take_left _ _
  · exact List.drop_left _ _

/-- Concrete run of the C5 theorem, the scenario of the spec: `max_length =
10` and four encoder output rows, so slots 4 through 9 of the window are zero
vectors. -/
theorem window_pad_zero_run :
    ([[3], [4], [5], [6]] : List (List Int)).length ≤ 10 ∧
    (∃ w, mkEncoderOutputs [[3], [4], [5], [6]] 10 = some w ∧
      w.length = 10 ∧
      w.take ([[3], [4], [5], [6]] : List (List Int)).length = [[3], [4], [5], [6]] ∧
      w.drop ([[3], [4], [5], [6]] : List (List Int)).length =
        List.replicate (10 - ([[3], [4], [5], [6]] : List (List Int)).length)
          (List.replicate (([[3], [4], [5], [6]] : List (List Int)).headD []).length 0)) :=
  ⟨by decide, window_pad_zero [[3], [4], [5], [6]] 10 (by decide)⟩

/-- Claim C8 (Encoder, modelled from the spec — the notebook's `Encoder`
class body is an exercise skeleton): the output sequence has exactly the
length of the input token sequence, the running state is initialized to the
zero vector of the hidden size, and the final state keeps the fixed hidden
size whatever the input length, for any recurrent cell whose updated state
has the hidden size. -/
theorem encoder_output_length_and_state (embedding : Nat → List Int)
    (cell : List Int → List Int → List Int × List Int) (hidden_size : Nat)
    (tokenIds : List Nat)
    (hcell : ∀ x h, ((cell x h).2).length = hidden_size) :
    (encode embedding cell hidden_size tokenIds).1.length = tokenIds.length ∧
    (encode embedding cell hidden_size tokenIds).2.length = hidden_size ∧
    encode embedding cell hidden_size tokenIds =
      encodeGo embedding cell tokenIds (List.replicate hidden_size 0) := by
  obtain ⟨h1, h2⟩ := encodeGo_spec embedding cell hidden_size hcell tokenIds
    (List.replicate hidden_size 0) (by simp)
  exact ⟨h1, h2, rfl⟩

/-- Concrete run of the C8 theorem: the stub embedding and stub cell of
hidden size 3 on the token sequence `[5, 6, 7]`. -/
theorem encoder_output_length_and_state_run :
    (∀ x h, ((stubCell x h).2).length = 3) ∧
    ((encode stubEmbedding stubCell 3 [5, 6, 7]).1.length =
        ([5, 6, 7] : List Nat).length ∧
      (encode stubEmbedding stubCell 3 [5, 6, 7]).2.length = 3 ∧
      encode stubEmbedding stubCell 3 [5, 6, 7] =
        encodeGo stubEmbedding stubCell [5, 6, 7] (List.replicate 3 0)) :=
  ⟨fun _ _ => rfl,
    encoder_output_length_and_state stubEmbedding stubCell 3 [5, 6, 7]
      (fun _ _ => rfl)⟩

/-- Claim C9: `translate` is deterministic — two runs with the same encoder,
the same decoder (weights) and the same source token sequence produce
identical results; the decode loop consults nothing besides its
arguments. -/
theorem translate_deterministic {σ : Type}
    (encoder encoder2 : List Nat → List (List Int) × σ)
    (d d2 : Decoder σ (List (List Int))) (src src2 : List Nat)
    (max_length : Nat) (he : encoder = encoder2) (hd : d = d2)
    (hs : src = src2) :
    translate encoder d src max_length = translate encoder2 d2 src2 max_length := by
  rw [he, hd, hs]

/-- Concrete run of the C9 theorem: two identical runs on source `[5, 6]`. -/
theorem translate_deterministic_run :
    (stubEncoder = stubEncoder ∧
      eosStubDecoder (List (List Int)) = eosStubDecoder (List (List Int)) ∧
      ([5, 6] : List Nat) = [5, 6]) ∧
    translate stubEncoder (eosStubDecoder (List (List Int))) [5, 6] 3 =
      translate stubEncoder (eosStubDecoder (List (List Int))) [5, 6] 3 :=
  ⟨⟨rfl, rfl, rfl⟩,
    translate_deterministic stubEncoder stubEncoder
      (eosStubDecoder (List (List Int))) (eosStubDecoder (List (List Int)))
      [5, 6] [5, 6] 3 rfl rfl rfl⟩

end Seq2Seq
